import Mathlib

/-!
Shallow embedding of `src/preprocess_data.py` (Ozone_Level_Detection).

The script decodes a CSV blob into a pandas DataFrame (`pd.read_csv`),
runs `preprocess_data` (nine ordered cleaning stages) and re-encodes.

Modelling choices, each noted at the definition it concerns:
* numeric cells are modelled over an arbitrary `LinearOrderedField α`
  (instantiated at `ℚ` for executable witnesses and at `ℝ` for the
  standardization stage, whose scale is `Real.sqrt` of the variance;
  `sklearn`'s float arithmetic is modelled as exact field arithmetic);
* a missing cell (pandas `NaN` / `NaT`) is `Option.none`;
* the square root used by `StandardScaler` is a parameter `sq : α → α`
  of the stages that need it, instantiated with `Real.sqrt` at `ℝ`.
-/

unseal Rat.add Rat.mul Rat.sub Rat.inv

namespace Ozone

/-- A calendar date as parsed by `pd.to_datetime(..., format="%m/%d/%Y")`. -/
structure Date where
  month : ℕ
  day : ℕ
  year : ℕ
deriving DecidableEq, Repr

/-- One record of the typed table: the `Date` cell plus the non-`Date`
cells in column order.  `none` is pandas `NaN`/`NaT`. -/
structure Row (α : Type) where
  date : Option Date
  nums : List (Option α)
deriving DecidableEq, Repr

/-- A typed DataFrame after stages 1-3: the names of the non-`Date`
columns in order (`numerical_cols` in the source selects exactly these,
since `pd.to_numeric(..., errors="coerce")` gives every non-`Date`
column a numeric dtype and the `Date` column a datetime dtype), and the
records. -/
structure Table (α : Type) where
  numNames : List String
  rows : List (Row α)
deriving DecidableEq, Repr

/-- Number of columns of the frame, `len(df.columns)`: the `Date`
column plus the numeric columns. -/
def ncols {α : Type} (t : Table α) : ℕ := t.numNames.length + 1

/-- Number of non-missing cells of a row (`df.count` over one row),
counting the `Date` cell. -/
def presentCount {α : Type} (r : Row α) : ℕ :=
  (if r.date.isSome then 1 else 0) + r.nums.countP (fun c => c.isSome)

/-- List-with-index map used to transform the numeric cells of a row
column by column (the starting index is explicit so that proofs can
induct on the list). -/
def mapIdxFrom {β γ : Type} (f : ℕ → β → γ) : ℕ → List β → List γ
  | _, [] => []
  | i, b :: l => f i b :: mapIdxFrom f (i + 1) l

/-- Cell of row `r` in numeric column `j` (`df[col]` at one row);
out-of-range reads as missing, which never happens on rectangular
frames. -/
def cellAt {α : Type} (r : Row α) (j : ℕ) : Option α := (r.nums.get? j).getD none

/-- Column `j` of the numeric part of the table, as the list of cells. -/
def getCol {α : Type} (t : Table α) (j : ℕ) : List (Option α) :=
  t.rows.map (fun r => cellAt r j)

/-- The present (non-missing) values of numeric column `j`, in row
order — pandas statistics (`median`, `quantile`, `mean`, `var`) skip
`NaN`, i.e. are computed over exactly this list. -/
def presentVals {α : Type} (t : Table α) (j : ℕ) : List α :=
  (getCol t j).filterMap id

section Field

variable {α : Type} [LinearOrderedField α]

/-- Linear-interpolation quantile at `q = a / b`, the default
`Series.quantile(q)` (`interpolation="linear"`): sort the present
values ascending; at position `q * (n - 1)` interpolate linearly
between the two neighbouring order statistics.  The index arithmetic
`⌊a * (n - 1) / b⌋` is done in `ℕ` so that the definition needs no
floor structure on `α`; it agrees with the float computation, which is
exact on these small dyadic inputs.  Empty input yields `none`
(pandas returns `NaN`). -/
def quantileQ (a b : ℕ) (l : List α) : Option α :=
  let s := l.insertionSort (· ≤ ·)
  let n := s.length
  if n = 0 then none
  else
    let tnum := a * (n - 1)
    let i := tnum / b
    let f : α := ((tnum % b : ℕ) : α) / (b : α)
    match s.get? i, s.get? (i + 1) with
    | some x, some y => some (x + f * (y - x))
    | some x, none => some x
    | none, _ => none

/-- Median, `Series.median()` = the 1/2 quantile with linear
interpolation over the present values. -/
def medianQ (l : List α) : Option α := quantileQ 1 2 l

/-- Mean of a list (`Series.mean()` over present values); empty list
gives `0/0 = 0`, only ever used on nonempty input. -/
def meanL (l : List α) : α := l.sum / l.length

/-- Population variance, `ddof = 0` — what `StandardScaler` computes
(`sklearn` uses the biased variance). -/
def popVar (l : List α) : α :=
  ((l.map (fun x => (x - meanL l) ^ 2)).sum) / l.length

/-- Stage 4, `df.dropna(thresh=len(df.columns) * 0.5)`: keep a row iff
its non-NA count is at least half the column count.  The comparison is
the source's `count >= 0.5 * ncols`, carried out in `α`. -/
def sparseStage (t : Table α) : Table α :=
  { t with rows := t.rows.filter (fun r =>
      decide ((ncols t : α) / 2 ≤ (presentCount r : α))) }

/-- Median of numeric column `j`, `df[col].median()`. -/
def colMedian (t : Table α) (j : ℕ) : Option α := medianQ (presentVals t j)

/-- Stage 5, `df[col] = df[col].fillna(df[col].median())` for each
numeric column.  The loop fills column by column, but filling one
column never changes another column's values, so the medians are those
of the table entering the stage; the fill is expressed row-wise with
the per-column medians.  A column with no present values has median
`NaN` and `fillna(NaN)` leaves its cells missing. -/
def imputeStage (t : Table α) : Table α :=
  { t with rows := t.rows.map (fun r =>
      { r with nums := mapIdxFrom (fun j c =>
          match c with
          | some v => some v
          | none => colMedian t j) 0 r.nums }) }

/-- The row filter of one step of stage 6: keep a row iff its cell in
the column is present and inside `[Q1 - 1.5*IQR, Q3 + 1.5*IQR]`.  When
the quantiles are `NaN` (no present value in the column) every
comparison `v >= NaN`/`v <= NaN` and every comparison on a `NaN` cell
is false in pandas, so the row is dropped. -/
def keepCell (q1 q3 c : Option α) : Bool :=
  match c, q1, q3 with
  | some v, some a, some b =>
      decide (a - 3 / 2 * (b - a) ≤ v ∧ v ≤ b + 3 / 2 * (b - a))
  | _, _, _ => false

/-- One iteration of the stage-6 loop body for column `j`:
`Q1 = df[col].quantile(0.25)`, `Q3 = df[col].quantile(0.75)`,
`df = df[(df[col] >= Q1 - 1.5*IQR) & (df[col] <= Q3 + 1.5*IQR)]`. -/
def trimCol (j : ℕ) (t : Table α) : Table α :=
  let q1 := quantileQ 1 4 (presentVals t j)
  let q3 := quantileQ 3 4 (presentVals t j)
  { t with rows := t.rows.filter (fun r => keepCell q1 q3 (cellAt r j)) }

/-- Stage 6, the IQR outlier trim: the loop reassigns `df`, so each
column's quantiles are computed on the table as already narrowed by
the previous columns' trims (sequential, not snapshot-based). -/
def trimStage (t : Table α) : Table α :=
  (List.range t.numNames.length).foldl (fun u j => trimCol j u) t

/-- A snapshot-based variant that is NOT what the source does: all
bounds are computed on the table entering the stage and the filters
applied simultaneously.  Used only to separate the two semantics. -/
def snapshotTrimStage (t : Table α) : Table α :=
  { t with rows := t.rows.filter (fun r =>
      (List.range t.numNames.length).all (fun j =>
        keepCell (quantileQ 1 4 (presentVals t j))
          (quantileQ 3 4 (presentVals t j)) (cellAt r j))) }

/-- The per-column scale of `StandardScaler`: the square root of the
population variance, with zero variance replaced by scale 1
(`_handle_zeros_in_scale`; note `sq 0 = 0` would be replaced by `1`
anyway, so testing the variance is equivalent). -/
def scaleOf (sq : α → α) (l : List α) : α :=
  if popVar l = 0 then 1 else sq (popVar l)

/-- Mean of the present values of numeric column `j`
(`StandardScaler`'s `mean_[j]`). -/
def colMean (t : Table α) (j : ℕ) : α := meanL (presentVals t j)

/-- Scale of numeric column `j` (`StandardScaler`'s `scale_[j]`). -/
def colScale (sq : α → α) (t : Table α) (j : ℕ) : α :=
  scaleOf sq (presentVals t j)

/-- The value transform of stage 7,
`df[numerical_cols] = scaler.fit_transform(df[numerical_cols])`:
every present cell `v` of numeric column `j` becomes
`(v - mean_j) / scale_j`; missing cells and the `Date` column are
untouched. -/
def scaleTable (sq : α → α) (t : Table α) : Table α :=
  { t with rows := t.rows.map (fun r =>
      { r with nums := mapIdxFrom (fun j c =>
          c.map (fun v => (v - colMean t j) / colScale sq t j)) 0 r.nums }) }

/-- The one failure of the pipeline: `StandardScaler.fit_transform`
raises `ValueError` when given 0 samples or 0 features. -/
inductive PipeError : Type
  | emptyScale : PipeError
deriving DecidableEq, Repr

/-- Stage 7 with its failure mode: `scaler.fit_transform(df[numerical_cols])`
raises on a frame with no rows or no numeric columns; otherwise it
rescales in place. -/
def scaleStage (sq : α → α) (t : Table α) : Except PipeError (Table α) :=
  if t.rows.length = 0 ∨ t.numNames.length = 0 then .error .emptyScale
  else .ok (scaleTable sq t)

/-- The marking pass of `df.drop_duplicates()` (default `keep="first"`),
with the set of already-seen rows explicit: a row is dropped iff it is
equal to some row seen earlier, exactly pandas `duplicated()`. -/
def dropDupAux {β : Type} [DecidableEq β] (seen : List β) : List β → List β
  | [] => []
  | b :: l => if b ∈ seen then dropDupAux seen l else b :: dropDupAux (b :: seen) l

/-- Keep-first duplicate removal, `df.drop_duplicates()`: drop every
row equal to an earlier row, keeping the first occurrence. -/
def dedupFirst {β : Type} [DecidableEq β] (l : List β) : List β := dropDupAux [] l

/-- Stage 8, `df.drop_duplicates(inplace=True)`: rows equal in every
column (the `Date` cell and all numeric cells) to an earlier row are
dropped, first occurrence kept. -/
def dedupStage [DecidableEq α] (t : Table α) : Table α :=
  { t with rows := dedupFirst t.rows }

/-- The cleaning pipeline from the typed table (the state after
stages 1-3) to the final result: sparse-row removal, median
imputation, IQR trimming, standardization (the only stage that can
raise) and duplicate removal.  Stage 9 of the source is commented out
(a no-op). -/
def clean [DecidableEq α] (sq : α → α) (t : Table α) : Except PipeError (Table α) :=
  (scaleStage sq (trimStage (imputeStage (sparseStage t)))).map dedupStage

/-- The table after stage 6 (the one handed to the scaler), named so
that statements about the failure condition can refer to it. -/
def preScaled (t : Table α) : Table α := trimStage (imputeStage (sparseStage t))

end Field

/-! ### The raw layer: CSV decoding and stages 1-3 -/

/-- Split a character list at every occurrence of the separator. -/
def splitOnChar (sep : Char) (l : List Char) : List (List Char) :=
  l.foldr (fun a acc =>
    if a = sep then [] :: acc
    else match acc with
      | [] => [[a]]
      | g :: gs => (a :: g) :: gs) [[]]

/-- The fields of one CSV line (comma-separated; quoting is not used
by the datasets and is not modelled). -/
def fieldsOf (line : List Char) : List (List Char) := splitOnChar ',' line

/-- An empty token is a missing cell already at `read_csv` time. -/
def tokenCell (f : List Char) : Option String :=
  if f = [] then none else some (String.mk f)

/-- A decoded raw table: the header names and the string-or-missing
cells of each data row, padded to the header width. -/
structure RawTable where
  header : List String
  rows : List (List (Option String))
deriving DecidableEq, Repr

/-- Decode failures of `pd.read_csv`: empty input (`EmptyDataError`)
or a data row with more fields than expected (`ParserError`,
"Expected N fields, saw M"). -/
inductive FormatError : Type
  | noHeader : FormatError
  | rowTooLong : FormatError
deriving DecidableEq, Repr

/-- The data-row width `pd.read_csv` establishes at the start of
parsing: the header width, or the first data row's width when that
row is wider — in that case pandas does not raise but promotes the
extra leading field(s) of every data row to the row index
(index-column inference). -/
def expectedWidth (hdrN : ℕ) : List (List Char) → ℕ
  | [] => hdrN
  | d0 :: _ => max hdrN (fieldsOf d0).length

/-- Decode one data row, where `w` is the established row width and
`k` the number of leading index fields (`w` minus the header width):
more fields than `w` is a parse error ("Expected w fields, saw ...");
fewer fields are silently padded with missing values at the end
(pandas pads short rows with `NaN` — it does not raise); the `k`
leading index fields are dropped, since the pipeline operates on the
named columns only and `to_csv(index=False)` discards the index again
on encode. -/
def decodeRow (k w : ℕ) (line : List Char) : Except FormatError (List (Option String)) :=
  let fs := fieldsOf line
  if w < fs.length then .error .rowTooLong
  else .ok ((fs.map tokenCell ++ List.replicate (w - fs.length) none).drop k)

/-- The non-blank lines of the input (`read_csv` skips blank lines). -/
def decodeLines (s : String) : List (List Char) :=
  (splitOnChar '\n' s.toList).filter (fun l => ¬(l = []))

/-- Model of `pd.read_csv(io.BytesIO(data))` on the textual table: the
first non-blank line is the header, every further line one data row;
the row width is established from the header and the first data row
(`expectedWidth`), a wider first data row triggering index-column
inference instead of an error. -/
def decode (s : String) : Except FormatError RawTable :=
  match decodeLines s with
  | [] => .error .noHeader
  | h :: ds => do
      let hdr := (fieldsOf h).map String.mk
      let w := expectedWidth hdr.length ds
      let rows ← ds.mapM (decodeRow (w - hdr.length) w)
      .ok ⟨hdr, rows⟩

/-- Numeral value of a digit list (most significant first). -/
def natOfDigits (l : List Char) : ℕ :=
  l.foldl (fun n c => 10 * n + (c.toNat - 48)) 0

/-- A nonempty all-digit token. -/
def digitsOnly (l : List Char) : Bool := decide (l ≠ []) && l.all Char.isDigit

/-- Strip an optional leading sign, returning whether it was `-`. -/
def stripSign : List Char → Bool × List Char
  | '-' :: l => (true, l)
  | '+' :: l => (false, l)
  | l => (false, l)

/-- Parse the mantissa `digits[.digits]` of a float literal as a
rational (at least one digit on some side of the point). -/
def parseMantissa (l : List Char) : Option ℚ :=
  match splitOnChar '.' l with
  | [ip] => if digitsOnly ip then some (natOfDigits ip : ℚ) else none
  | [ip, fp] =>
      if (ip.all Char.isDigit && fp.all Char.isDigit) && decide (ip ≠ [] ∨ fp ≠ []) then
        some ((natOfDigits ip : ℚ) + (natOfDigits fp : ℚ) / (10 : ℚ) ^ fp.length)
      else none
  | _ => none

/-- Model of `pd.to_numeric(cell, errors="coerce")` on one string
token: an optionally signed decimal literal with an optional
`e`/`E`-exponent parses to its exact rational value, anything else
coerces to missing.  (`inf`/`nan` literals do not occur in the
datasets and are not modelled.)  Surrounding spaces are ignored as
`to_numeric` does. -/
def parseNumQ (s : String) : Option ℚ :=
  let l := ((s.toList.dropWhile (fun c => c = ' ')).reverse.dropWhile
    (fun c => c = ' ')).reverse
  let (neg, l) := stripSign l
  let body : Option ℚ :=
    match l.span (fun c => ¬(c = 'e' ∨ c = 'E')) with
    | (m, []) => parseMantissa m
    | (m, _ :: ex) =>
        match parseMantissa m, stripSign ex with
        | some q, (eneg, ed) =>
            if digitsOnly ed then
              some (if eneg then q / (10 : ℚ) ^ natOfDigits ed
                    else q * (10 : ℚ) ^ natOfDigits ed)
            else none
        | none, _ => none
  body.map (fun q => if neg then -q else q)

/-- Leap-year rule of the Gregorian calendar. -/
def isLeap (y : ℕ) : Bool :=
  (y % 4 = 0 && ¬(y % 100 = 0)) || y % 400 = 0

/-- Days of month `m` in year `y`. -/
def daysInMonth (m y : ℕ) : ℕ :=
  if m = 2 then (if isLeap y then 29 else 28)
  else if m = 4 ∨ m = 6 ∨ m = 9 ∨ m = 11 then 30
  else 31

/-- Model of `pd.to_datetime(cell, format="%m/%d/%Y", errors="coerce")`
on one token: `month/day/year` with 1-2 digit month and day and up to
4 digit year, a valid calendar date; anything else coerces to missing
(`NaT`).  (The pandas `Timestamp` range bound is not modelled; the
datasets stay far inside it.) -/
def parseDateQ (s : String) : Option Date :=
  match splitOnChar '/' s.toList with
  | [ms, ds, ys] =>
      if (digitsOnly ms && digitsOnly ds && digitsOnly ys) &&
         (decide (ms.length ≤ 2) && decide (ds.length ≤ 2) && decide (ys.length ≤ 4)) then
        let m := natOfDigits ms
        let d := natOfDigits ds
        let y := natOfDigits ys
        if (decide (1 ≤ m) && decide (m ≤ 12)) &&
           (decide (1 ≤ d) && decide (d ≤ daysInMonth m y)) then
          some ⟨m, d, y⟩
        else none
      else none
  | _ => none

/-- Stage 1 on one cell, `df.replace("?", np.nan)`: the literal `?`
becomes missing before any parsing. -/
def stripQ (c : Option String) : Option String :=
  c.bind (fun s => if s = "?" then none else some s)

/-- Stages 1-3 applied to one raw numeric cell. -/
def parseNumCell (c : Option String) : Option ℚ := (stripQ c).bind parseNumQ

/-- Stages 1-3 applied to the raw `Date` cell. -/
def parseDateCell (c : Option String) : Option Date := (stripQ c).bind parseDateQ

/-- Stages 1-3 on the decoded raw table: `?`-normalization, numeric
coercion of every non-`Date` column, date parsing of the `Date`
column.  `df["Date"]` raises `KeyError` when no `Date` column exists,
hence the `Option`. -/
def parseTable (rt : RawTable) : Option (Table ℚ) :=
  match rt.header.findIdx? (fun h => h = "Date") with
  | none => none
  | some di => some
      { numNames := rt.header.eraseIdx di
        rows := rt.rows.map (fun row =>
          { date := parseDateCell ((row.get? di).getD none)
            nums := (row.eraseIdx di).map parseNumCell }) }

/-! ### Concrete tables and inputs used by witnesses and counterexamples -/

/-- Shorthand date cell for examples. -/
def exDate (n : ℕ) : Option Date := some ⟨1, n, 2020⟩

/-- One numeric column holding `[1,2,3,4,100]` (the spec's literal
outlier scenario). -/
def c2lit : Table ℚ :=
  ⟨["X"], [⟨exDate 1, [some 1]⟩, ⟨exDate 2, [some 2]⟩, ⟨exDate 3, [some 3]⟩,
           ⟨exDate 4, [some 4]⟩, ⟨exDate 5, [some 100]⟩]⟩

/-- The literal scenario after trimming: the row holding 100 is gone. -/
def c2litOut : Table ℚ :=
  ⟨["X"], [⟨exDate 1, [some 1]⟩, ⟨exDate 2, [some 2]⟩, ⟨exDate 3, [some 3]⟩,
           ⟨exDate 4, [some 4]⟩]⟩

/-- A two-column table on which the sequential trim and the
snapshot-based trim disagree: trimming `A` drops the last row, which
moves `B`'s quantiles enough that the first row is dropped
sequentially but kept under snapshot bounds. -/
def c2seq : Table ℚ :=
  ⟨["A", "B"],
   [⟨exDate 1, [some 0, some 0]⟩, ⟨exDate 2, [some 0, some 10]⟩,
    ⟨exDate 3, [some 0, some 10]⟩, ⟨exDate 4, [some 0, some 10]⟩,
    ⟨exDate 5, [some 0, some 10]⟩, ⟨exDate 6, [some 100, some (-1000)]⟩]⟩

/-- A header-only CSV blob: decodes to a table with zero rows. -/
def c1csv : String := "Date,X"

/-- A CSV blob whose `Y` column is entirely `?`: both rows survive
sparse-row removal, and `Y` has no present value to impute from. -/
def c3csv : String := "Date,X,Y\n1/1/2020,1,?\n1/2/2020,2,?"

/-- The typed table stages 1-3 produce from `c3csv`. -/
def c3typed : Table ℚ :=
  ⟨["X", "Y"], [⟨exDate 1, [some 1, none]⟩, ⟨exDate 2, [some 2, none]⟩]⟩

/-- A two-row table on which the whole pipeline succeeds (used to
exercise hypotheses of the shape `clean sq t = .ok u`). -/
def wtab : Table ℚ := ⟨["X"], [⟨exDate 1, [some 0]⟩, ⟨exDate 2, [some 1]⟩]⟩

/-- The pipeline's output on `wtab` (scale `sq` taken as the identity:
variance 1/4, so each value `v` becomes `(v - 1/2) / (1/4)`). -/
def wout : Table ℚ := ⟨["X"], [⟨exDate 1, [some (-2)]⟩, ⟨exDate 2, [some 2]⟩]⟩

/-- A real-valued column `[0, 2]` with population variance 1. -/
def c4tab : Table ℝ := ⟨["X"], [⟨exDate 1, [some 0]⟩, ⟨exDate 2, [some 2]⟩]⟩

/-- A one-row real table already in cleaned form. -/
def c8tab : Table ℝ := ⟨["X"], [⟨exDate 1, [some 0]⟩]⟩

/-- A CSV blob with a data row shorter than its header. -/
def c9csv : String := "A,B,C\n1,2"

/-- A CSV blob whose first data row is one field wider than its
header: pandas promotes the leading field to the row index and
succeeds. -/
def idxcsv : String := "A,B\n1,2,3"

/-! ### Helper lemmas on the list combinators -/

theorem mapIdxFrom_length {β γ : Type} (f : ℕ → β → γ) (s : ℕ) (l : List β) :
    (mapIdxFrom f s l).length = l.length := by
  induction l generalizing s with
  | nil => rfl
  | cons b l ih => simp [mapIdxFrom, ih]

theorem mapIdxFrom_get? {β γ : Type} (f : ℕ → β → γ) (s j : ℕ) (l : List β) :
    (mapIdxFrom f s l).get? j = (l.get? j).map (f (s + j)) := by
  induction l generalizing s j with
  | nil => simp [mapIdxFrom]
  | cons b l ih =>
      cases j with
      | zero => rfl
      | succ j =>
          have h : s + (j + 1) = (s + 1) + j := by omega
          simpa [mapIdxFrom, h] using ih (s + 1) j

theorem mapIdxFrom_eq_self {β : Type} (f : ℕ → β → β) (s : ℕ) (l : List β)
    (h : ∀ i b, b ∈ l → f i b = b) : mapIdxFrom f s l = l := by
  induction l generalizing s with
  | nil => rfl
  | cons b l ih =>
      simp only [mapIdxFrom]
      rw [h s b (List.mem_cons_self b l),
        ih (s + 1) (fun i b hb => h i b (List.mem_cons_of_mem _ hb))]

theorem mapIdxFrom_inj {β γ : Type} (f : ℕ → β → γ)
    (hf : ∀ i, Function.Injective (f i)) (s : ℕ) (l1 l2 : List β)
    (h : mapIdxFrom f s l1 = mapIdxFrom f s l2) : l1 = l2 := by
  induction l1 generalizing s l2 with
  | nil => cases l2 with
    | nil => rfl
    | cons b l2 => exact absurd h (by simp [mapIdxFrom])
  | cons a l1 ih =>
      cases l2 with
      | nil => exact absurd h (by simp [mapIdxFrom])
      | cons b l2 =>
          simp only [mapIdxFrom, List.cons.injEq] at h
          exact congrArg₂ (· :: ·) (hf s h.1) (ih (s + 1) l2 h.2)

theorem filterMap_id_map_optMap {β γ : Type} (g : β → γ) (l : List (Option β)) :
    (l.map (Option.map g)).filterMap id = (l.filterMap id).map g := by
  induction l with
  | nil => rfl
  | cons c l ih => cases c <;> simp [ih]

theorem dropDupAux_sublist {β : Type} [DecidableEq β] (seen l : List β) :
    (dropDupAux seen l).Sublist l := by
  induction l generalizing seen with
  | nil => exact List.Sublist.refl _
  | cons b l ih =>
      simp only [dropDupAux]
      split
      · exact (ih seen).trans (List.sublist_cons_self b l)
      · exact (ih (b :: seen)).cons₂ b

theorem mem_dropDupAux {β : Type} [DecidableEq β] (seen l : List β) (x : β) :
    x ∈ dropDupAux seen l ↔ x ∈ l ∧ x ∉ seen := by
  induction l generalizing seen with
  | nil => simp [dropDupAux]
  | cons b l ih =>
      simp only [dropDupAux]
      split
      · rename_i hb
        rw [ih seen]
        constructor
        · exact fun ⟨h1, h2⟩ => ⟨List.mem_cons_of_mem _ h1, h2⟩
        · rintro ⟨h1, h2⟩
          rcases List.mem_cons.mp h1 with rfl | h1
          · exact absurd hb h2
          · exact ⟨h1, h2⟩
      · rename_i hb
        simp only [List.mem_cons, ih (b :: seen)]
        constructor
        · rintro (rfl | ⟨h1, h2⟩)
          · exact ⟨Or.inl rfl, hb⟩
          · exact ⟨Or.inr h1, fun hx => h2 (Or.inr hx)⟩
        · rintro ⟨rfl | h1, h2⟩
          · exact Or.inl rfl
          · by_cases hxb : x = b
            · exact Or.inl hxb
            · exact Or.inr ⟨h1, fun hx => (hx.elim hxb h2 : False)⟩

theorem dropDupAux_nodup {β : Type} [DecidableEq β] (seen l : List β) :
    (dropDupAux seen l).Nodup := by
  induction l generalizing seen with
  | nil => exact List.nodup_nil
  | cons b l ih =>
      simp only [dropDupAux]
      split
      · exact ih seen
      · refine List.nodup_cons.mpr ⟨fun hb => ?_, ih (b :: seen)⟩
        exact ((mem_dropDupAux _ _ _).mp hb).2 (List.mem_cons_self b seen)

theorem dropDupAux_eq_self {β : Type} [DecidableEq β] (seen l : List β)
    (h1 : l.Nodup) (h2 : ∀ x ∈ l, x ∉ seen) : dropDupAux seen l = l := by
  induction l generalizing seen with
  | nil => rfl
  | cons b l ih =>
      obtain ⟨hb, h1⟩ := List.nodup_cons.mp h1
      simp only [dropDupAux, if_neg (h2 b (List.mem_cons_self b l))]
      rw [ih (b :: seen) h1]
      intro x hx
      simp only [List.mem_cons]
      rintro (rfl | hxs)
      · exact hb hx
      · exact h2 x (List.mem_cons_of_mem _ hx) hxs

theorem dedupFirst_sublist {β : Type} [DecidableEq β] (l : List β) :
    (dedupFirst l).Sublist l := dropDupAux_sublist [] l

theorem dedupFirst_nodup {β : Type} [DecidableEq β] (l : List β) :
    (dedupFirst l).Nodup := dropDupAux_nodup [] l

theorem mem_dedupFirst {β : Type} [DecidableEq β] (l : List β) (x : β) :
    x ∈ dedupFirst l ↔ x ∈ l := by
  rw [dedupFirst, mem_dropDupAux]
  simp

theorem dedupFirst_eq_self {β : Type} [DecidableEq β] (l : List β)
    (h : l.Nodup) : dedupFirst l = l :=
  dropDupAux_eq_self [] l h (by simp)

/-! ### Plumbing lemmas about the pipeline stages -/

section FieldLemmas

variable {α : Type} [LinearOrderedField α]

theorem sparseStage_numNames (t : Table α) :
    (sparseStage t).numNames = t.numNames := rfl

theorem imputeStage_numNames (t : Table α) :
    (imputeStage t).numNames = t.numNames := rfl

theorem trimCol_numNames (j : ℕ) (t : Table α) :
    (trimCol j t).numNames = t.numNames := rfl

theorem foldlTrim_numNames (js : List ℕ) (t : Table α) :
    (js.foldl (fun u j => trimCol j u) t).numNames = t.numNames := by
  induction js generalizing t with
  | nil => rfl
  | cons j js ih => exact (ih (trimCol j t)).trans rfl

theorem trimStage_numNames (t : Table α) :
    (trimStage t).numNames = t.numNames := foldlTrim_numNames _ t

theorem preScaled_numNames (t : Table α) :
    (preScaled t).numNames = t.numNames := trimStage_numNames _

theorem sparseStage_rows_sublist (t : Table α) :
    (sparseStage t).rows.Sublist t.rows := List.filter_sublist _

theorem imputeStage_rows_length (t : Table α) :
    (imputeStage t).rows.length = t.rows.length := List.length_map _ _

theorem imputeStage_dates (t : Table α) :
    (imputeStage t).rows.map Row.date = t.rows.map Row.date := by
  show (t.rows.map _).map Row.date = _
  rw [List.map_map]
  exact List.map_congr_left fun r _ => rfl

theorem trimCol_rows_sublist (j : ℕ) (t : Table α) :
    (trimCol j t).rows.Sublist t.rows := List.filter_sublist _

theorem foldlTrim_rows_sublist (js : List ℕ) (t : Table α) :
    (js.foldl (fun u j => trimCol j u) t).rows.Sublist t.rows := by
  induction js generalizing t with
  | nil => exact List.Sublist.refl _
  | cons j js ih => exact (ih (trimCol j t)).trans (trimCol_rows_sublist j t)

theorem trimStage_rows_sublist (t : Table α) :
    (trimStage t).rows.Sublist t.rows := foldlTrim_rows_sublist _ t

theorem scaleTable_rows_length (sq : α → α) (t : Table α) :
    (scaleTable sq t).rows.length = t.rows.length := List.length_map _ _

theorem scaleTable_dates (sq : α → α) (t : Table α) :
    (scaleTable sq t).rows.map Row.date = t.rows.map Row.date := by
  show (t.rows.map _).map Row.date = _
  rw [List.map_map]
  exact List.map_congr_left fun r _ => rfl

omit [LinearOrderedField α] in
theorem dedupStage_rows_sublist [DecidableEq α] (t : Table α) :
    (dedupStage t).rows.Sublist t.rows := dedupFirst_sublist _

/-- Success elimination: a successful run is exactly the dedup of the
scaled table, and the scaler preconditions held. -/
theorem clean_ok_elim [DecidableEq α] (sq : α → α) (t u : Table α)
    (h : clean sq t = .ok u) :
    u = dedupStage (scaleTable sq (preScaled t)) ∧
      (preScaled t).rows ≠ [] ∧ t.numNames ≠ [] := by
  rw [show clean sq t = (scaleStage sq (preScaled t)).map dedupStage from rfl] at h
  unfold scaleStage at h
  split at h
  · exact absurd h (by simp [Except.map])
  · rename_i hc
    push_neg at hc
    have hr : (preScaled t).rows ≠ [] := fun he => hc.1 (by rw [he]; rfl)
    have hn : t.numNames ≠ [] := fun he =>
      hc.2 (by rw [preScaled_numNames, he]; rfl)
    refine ⟨?_, hr, hn⟩
    simpa [Except.map] using h.symm

/-- Success characterization: the pipeline succeeds iff there is a
numeric column and outlier trimming leaves at least one row. -/
theorem clean_ok_iff [DecidableEq α] (sq : α → α) (t : Table α) :
    (∃ u, clean sq t = .ok u) ↔
      t.numNames ≠ [] ∧ (preScaled t).rows ≠ [] := by
  constructor
  · rintro ⟨u, hu⟩
    obtain ⟨-, h2, h3⟩ := clean_ok_elim sq t u hu
    exact ⟨h3, h2⟩
  · rintro ⟨h1, h2⟩
    refine ⟨dedupStage (scaleTable sq (preScaled t)), ?_⟩
    rw [show clean sq t = (scaleStage sq (preScaled t)).map dedupStage from rfl]
    unfold scaleStage
    rw [if_neg, Except.map]
    push_neg
    refine ⟨fun he => h2 (List.length_eq_zero.mp he), fun he => ?_⟩
    rw [preScaled_numNames] at he
    exact h1 (List.length_eq_zero.mp he)

/-- A quantile with `a/b ≤ 1` of a nonempty list exists (pandas only
returns `NaN` on an empty/all-`NaN` column). -/
theorem quantileQ_isSome (a b : ℕ) (hab : a ≤ b) (hb : 0 < b) (l : List α)
    (hl : l ≠ []) : ∃ x, quantileQ a b l = some x := by
  unfold quantileQ
  have hn : (l.insertionSort (· ≤ ·)).length = l.length :=
    List.length_insertionSort _ _
  have hne : ¬(l.insertionSort (· ≤ ·)).length = 0 := by
    rw [hn, List.length_eq_zero]; exact hl
  simp only [if_neg hne]
  set s := l.insertionSort (· ≤ ·) with hs
  have hi : a * (s.length - 1) / b < s.length := by
    have h1 : a * (s.length - 1) ≤ b * (s.length - 1) :=
      Nat.mul_le_mul_right _ hab
    have h2 : a * (s.length - 1) / b ≤ b * (s.length - 1) / b :=
      Nat.div_le_div_right h1
    rw [Nat.mul_div_cancel_left _ hb] at h2
    omega
  rw [List.get?_eq_get hi]
  cases h3 : s.get? (a * (s.length - 1) / b + 1) with
  | none => exact ⟨_, rfl⟩
  | some y => exact ⟨_, rfl⟩

/-- The median of a column with a present value exists. -/
theorem medianQ_isSome (l : List α) (hl : l ≠ []) :
    ∃ x, medianQ l = some x :=
  quantileQ_isSome 1 2 (by omega) (by omega) l hl

omit [LinearOrderedField α] in
/-- Transforming the numeric cells of a row cell-wise commutes with
reading one cell. -/
theorem cellAt_mapRow (g : ℕ → α → α) (r : Row α) (j : ℕ) :
    cellAt { r with nums := mapIdxFrom (fun i c => c.map (g i)) 0 r.nums } j =
      (cellAt r j).map (g j) := by
  unfold cellAt
  rw [mapIdxFrom_get?, Nat.zero_add]
  cases r.nums.get? j with
  | none => rfl
  | some c => cases c <;> rfl

/-- Affine sums: `Σ (a * v + d) = a * Σ v + n * d`. -/
theorem sum_map_affine (a d : α) (l : List α) :
    (l.map (fun v => a * v + d)).sum = a * l.sum + l.length * d := by
  induction l with
  | nil => simp
  | cons x l ih => simp [ih]; ring

/-- Scalar multiples factor out of sums. -/
theorem sum_map_mul (a : α) (f g : α → α) (hfg : ∀ v, f v = a * g v)
    (l : List α) : (l.map f).sum = a * (l.map g).sum := by
  induction l with
  | nil => simp
  | cons x l ih => simp [ih, hfg x]; ring

/-- Centering then dividing gives mean zero. -/
theorem meanL_center_div (l : List α) (c : α) (hl : l ≠ []) :
    meanL (l.map (fun v => (v - meanL l) / c)) = 0 := by
  have hn : (l.length : α) ≠ 0 :=
    Nat.cast_ne_zero.mpr (fun h => hl (List.length_eq_zero.mp h))
  unfold meanL
  rw [List.length_map,
    show (fun v => (v - l.sum / l.length) / c) =
      (fun v => c⁻¹ * v + -(l.sum / l.length / c)) from funext fun v => by ring,
    sum_map_affine]
  field_simp
  rw [neg_div, mul_div_mul_left _ _ hn]
  ring

/-- Population variance of the centered-and-divided list. -/
theorem popVar_center_div (l : List α) (c : α) (hl : l ≠ []) :
    popVar (l.map (fun v => (v - meanL l) / c)) = popVar l / c ^ 2 := by
  have h0 := meanL_center_div l c hl
  unfold popVar
  rw [h0, List.length_map, List.map_map]
  rw [sum_map_mul ((c ^ 2)⁻¹) _ (fun v => (v - meanL l) ^ 2)
    (fun v => by simp only [Function.comp]; rw [sub_zero, div_pow]; ring) l]
  ring

/-- Population variance is nonnegative. -/
theorem popVar_nonneg (l : List α) : 0 ≤ popVar l := by
  unfold popVar
  refine div_nonneg (List.sum_nonneg ?_) (by positivity)
  intro x hx
  obtain ⟨v, -, rfl⟩ := List.mem_map.mp hx
  positivity

/-- Reading a column of the scaled table: every cell is the affine
image of the original cell. -/
theorem getCol_scaleTable (sq : α → α) (t : Table α) (j : ℕ) :
    getCol (scaleTable sq t) j =
      (getCol t j).map (Option.map (fun v => (v - colMean t j) / colScale sq t j)) := by
  show (t.rows.map _).map (fun r => cellAt r j) = _
  unfold getCol
  rw [List.map_map, List.map_map]
  exact List.map_congr_left fun r _ =>
    cellAt_mapRow (fun i v => (v - colMean t i) / colScale sq t i) r j

/-- The present values of a column of the scaled table. -/
theorem presentVals_scaleTable (sq : α → α) (t : Table α) (j : ℕ) :
    presentVals (scaleTable sq t) j =
      (presentVals t j).map (fun v => (v - colMean t j) / colScale sq t j) := by
  unfold presentVals
  rw [getCol_scaleTable, filterMap_id_map_optMap]

/-- Reading an in-range cell of a row after imputation. -/
theorem cellAt_imputeRow (t : Table α) (r : Row α) (j : ℕ)
    (hj : j < r.nums.length) :
    cellAt { r with nums := mapIdxFrom (fun i c =>
        match c with
        | some v => some v
        | none => colMedian t i) 0 r.nums } j =
      (match cellAt r j with
       | some v => some v
       | none => colMedian t j) := by
  unfold cellAt
  rw [mapIdxFrom_get?, Nat.zero_add, List.get?_eq_get hj]
  cases r.nums.get ⟨j, hj⟩ with
  | none => rfl
  | some v => rfl

/-- Reading an in-range column of the imputed table on a rectangular
table. -/
theorem getCol_imputeStage (t : Table α) (j : ℕ)
    (hrect : ∀ r ∈ t.rows, r.nums.length = t.numNames.length)
    (hj : j < t.numNames.length) :
    getCol (imputeStage t) j =
      (getCol t j).map (fun c =>
        match c with
        | some v => some v
        | none => colMedian t j) := by
  show (t.rows.map _).map (fun r => cellAt r j) = _
  unfold getCol
  rw [List.map_map, List.map_map]
  refine List.map_congr_left fun r hr => ?_
  exact cellAt_imputeRow t r j (by rw [hrect r hr]; exact hj)

/-- Sparse-row removal is the identity on a table with a numeric
column whose numeric cells are all present. -/
theorem sparseStage_eq_self (t : Table α) (hn : t.numNames ≠ [])
    (hrect : ∀ r ∈ t.rows, r.nums.length = t.numNames.length)
    (hpres : ∀ r ∈ t.rows, ∀ c ∈ r.nums, c.isSome) :
    sparseStage t = t := by
  unfold sparseStage
  rw [List.filter_eq_self.mpr, ]
  intro r hr
  rw [decide_eq_true_eq]
  have hcount : r.nums.countP (fun c => c.isSome) = r.nums.length :=
    List.countP_eq_length.mpr (hpres r hr)
  have hk : 1 ≤ t.numNames.length :=
    List.length_pos.mpr hn
  have hine : ncols t ≤ 2 * presentCount r := by
    unfold ncols presentCount
    rw [hcount, hrect r hr]
    cases r.date.isSome <;> simp <;> omega
  rw [div_le_iff₀ (by norm_num : (0 : α) < 2)]
  calc ((ncols t : ℕ) : α) ≤ ((2 * presentCount r : ℕ) : α) := by
        exact_mod_cast hine
    _ = (presentCount r : α) * 2 := by push_cast; ring

/-- Imputation is the identity when every numeric cell is present. -/
theorem imputeStage_eq_self (t : Table α)
    (hpres : ∀ r ∈ t.rows, ∀ c ∈ r.nums, c.isSome) :
    imputeStage t = t := by
  unfold imputeStage
  have : t.rows.map (fun r =>
      { r with nums := mapIdxFrom (fun j c =>
          match c with
          | some v => some v
          | none => colMedian t j) 0 r.nums }) = t.rows.map id := by
    refine List.map_congr_left fun r hr => ?_
    have hnums : mapIdxFrom (fun j c =>
        match c with
        | some v => some v
        | none => colMedian t j) 0 r.nums = r.nums := by
      refine mapIdxFrom_eq_self _ 0 r.nums fun i c hc => ?_
      rcases c with - | v
      · exact absurd (hpres r hr none hc) (by simp)
      · rfl
    rw [hnums]
    rfl
  rw [this, List.map_id]

/-- One trim step is the identity when every row passes its filter. -/
theorem trimCol_eq_self (j : ℕ) (t : Table α)
    (h : ∀ r ∈ t.rows,
      keepCell (quantileQ 1 4 (presentVals t j)) (quantileQ 3 4 (presentVals t j))
        (cellAt r j) = true) :
    trimCol j t = t := by
  show Table.mk t.numNames (t.rows.filter (fun r =>
    keepCell (quantileQ 1 4 (presentVals t j)) (quantileQ 3 4 (presentVals t j))
      (cellAt r j))) = t
  rw [List.filter_eq_self.mpr h]

/-- The whole outlier stage is the identity when every cell of every
numeric column passes the bounds computed on the table itself. -/
theorem trimStage_eq_self (t : Table α)
    (h : ∀ j < t.numNames.length, ∀ r ∈ t.rows,
      keepCell (quantileQ 1 4 (presentVals t j)) (quantileQ 3 4 (presentVals t j))
        (cellAt r j) = true) :
    trimStage t = t := by
  unfold trimStage
  have hgen : ∀ js : List ℕ, (∀ j ∈ js, j < t.numNames.length) →
      js.foldl (fun u j => trimCol j u) t = t := by
    intro js
    induction js with
    | nil => intro _; rfl
    | cons j js ih =>
        intro hjs
        have h1 : trimCol j t = t :=
          trimCol_eq_self j t (h j (hjs j (List.mem_cons_self j js)))
        show List.foldl _ (trimCol j t) js = t
        rw [h1]
        exact ih (fun i hi => hjs i (List.mem_cons_of_mem _ hi))
  exact hgen (List.range t.numNames.length) (fun j hj => List.mem_range.mp hj)

end FieldLemmas

/-! ### Real-valued lemmas about the standardization scale -/

theorem colScale_pos (t : Table ℝ) (j : ℕ) : 0 < colScale Real.sqrt t j := by
  unfold colScale scaleOf
  split
  · exact one_pos
  · rename_i hv
    exact Real.sqrt_pos.mpr (lt_of_le_of_ne (popVar_nonneg _) (Ne.symm hv))

/-- Standardization is injective on rows (every per-column map is a
strictly increasing affine map), hence preserves distinctness. -/
theorem scaleTable_rows_nodup (t : Table ℝ) (hnd : t.rows.Nodup) :
    (scaleTable Real.sqrt t).rows.Nodup := by
  show (t.rows.map _).Nodup
  refine List.Nodup.map ?_ hnd
  intro r1 r2 h
  dsimp only at h
  rw [Row.mk.injEq] at h
  obtain ⟨hdate, hnums⟩ := h
  have hn2 : r1.nums = r2.nums := by
    refine mapIdxFrom_inj _ ?_ 0 _ _ hnums
    intro i
    refine Option.map_injective ?_
    intro x y hxy
    have hc : colScale Real.sqrt t i ≠ 0 := ne_of_gt (colScale_pos t i)
    rw [div_eq_div_iff hc hc] at hxy
    have := mul_right_cancel₀ hc hxy
    linarith
  cases r1 with
  | mk d1 n1 =>
      cases r2 with
      | mk d2 n2 =>
          dsimp at hdate hn2
          rw [hdate, hn2]

/-! ### The claims -/

/-- C2: in the outlier stage the numeric columns are trimmed one at a
time in column order, the quantiles being recomputed on the table as
narrowed by the previous columns' trims (not on a snapshot taken at
stage entry); in particular on the column `[1,2,3,4,100]` the
quantiles are Q1 = 2 and Q3 = 4, the bounds `[-1, 7]`, and the row
holding 100 is dropped.  The first conjunct is the literal scenario;
the last conjunct separates the sequential semantics from the
snapshot semantics on a concrete two-column table, where they keep a
different number of rows. -/
theorem c2_outlier_trim_sequential :
    (quantileQ 1 4 [(1 : ℚ), 2, 3, 4, 100] = some 2 ∧
      quantileQ 3 4 [(1 : ℚ), 2, 3, 4, 100] = some 4 ∧
      trimStage c2lit = c2litOut) ∧
    trimStage c2seq ≠ snapshotTrimStage c2seq :=
  ⟨⟨by decide, by decide, by decide⟩, by decide⟩

/-- C5: sparse-row removal keeps exactly the rows whose missing-cell
fraction is at most one half of the column count, equivalently whose
present-cell count is at least `⌈columnCount / 2⌉`; rows with exactly
half of their cells missing are kept, and the kept rows appear in
their original order (the stage is a filter). -/
theorem c5_sparse_row_threshold (α : Type) [LinearOrderedField α]
    (t : Table α) (r : Row α) :
    ((sparseStage t).rows = t.rows.filter (fun s =>
      decide ((ncols t : α) / 2 ≤ (presentCount s : α)))) ∧
    (r ∈ (sparseStage t).rows ↔
      r ∈ t.rows ∧ (ncols t + 1) / 2 ≤ presentCount r) ∧
    (r ∈ (sparseStage t).rows ↔
      r ∈ t.rows ∧ ((ncols t - presentCount r : ℕ) : α) / (ncols t : α) ≤ 1 / 2) ∧
    (2 * presentCount r = ncols t → r ∈ t.rows → r ∈ (sparseStage t).rows) := by
  have hkey : ∀ s : Row α,
      ((ncols t : α) / 2 ≤ (presentCount s : α)) ↔ ncols t ≤ 2 * presentCount s := by
    intro s
    rw [div_le_iff₀ (by norm_num : (0 : α) < 2),
      show ((presentCount s : α) * 2) = ((2 * presentCount s : ℕ) : α) from by
        push_cast; ring]
    exact Nat.cast_le
  have hmem : ∀ s : Row α, s ∈ (sparseStage t).rows ↔
      s ∈ t.rows ∧ ncols t ≤ 2 * presentCount s := by
    intro s
    show s ∈ t.rows.filter _ ↔ _
    rw [List.mem_filter, decide_eq_true_eq, hkey]
  refine ⟨rfl, ?_, ?_, ?_⟩
  · rw [hmem r]
    exact and_congr_right fun _ => by omega
  · rw [hmem r]
    refine and_congr_right fun _ => ?_
    have hn0 : (0 : α) < (ncols t : α) := by
      exact_mod_cast show 0 < ncols t from by unfold ncols; omega
    rw [div_le_div_iff₀ hn0 (by norm_num : (0 : α) < 2),
      show (((ncols t - presentCount r : ℕ) : α)) * 2 =
        (((ncols t - presentCount r) * 2 : ℕ) : α) from by push_cast; ring,
      show (1 : α) * (ncols t : α) = ((ncols t : ℕ) : α) from by ring,
      Nat.cast_le]
    omega
  · intro h hr
    exact (hmem r).mpr ⟨hr, by omega⟩

/-- Witness for C5 at a concrete table and row. -/
theorem c5_sparse_row_threshold_w :
    (⟨exDate 1, [some 0]⟩ : Row ℚ) ∈ (sparseStage wtab).rows ↔
      (⟨exDate 1, [some 0]⟩ : Row ℚ) ∈ wtab.rows ∧
        (ncols wtab + 1) / 2 ≤ presentCount (⟨exDate 1, [some 0]⟩ : Row ℚ) :=
  (c5_sparse_row_threshold ℚ wtab ⟨exDate 1, [some 0]⟩).2.1

/-- C6: a successful run returns at most as many rows as it was
given; imputation (stage 5) and standardization (stage 7) keep the
row list length, while sparse-row removal, trimming and duplicate
removal return sublists of their input rows (removal only, no
addition or duplication, order kept). -/
theorem c6_output_row_count_le (α : Type) [LinearOrderedField α] [DecidableEq α]
    (sq : α → α) (t u : Table α) (h : clean sq t = .ok u) :
    u.rows.length ≤ t.rows.length ∧
    (imputeStage t).rows.length = t.rows.length ∧
    (scaleTable sq t).rows.length = t.rows.length ∧
    (sparseStage t).rows.Sublist t.rows ∧
    (trimStage t).rows.Sublist t.rows ∧
    (dedupStage t).rows.Sublist t.rows := by
  refine ⟨?_, imputeStage_rows_length t, scaleTable_rows_length sq t,
    sparseStage_rows_sublist t, trimStage_rows_sublist t, dedupStage_rows_sublist t⟩
  obtain ⟨rfl, -, -⟩ := clean_ok_elim sq t u h
  calc (dedupStage (scaleTable sq (preScaled t))).rows.length
      ≤ (scaleTable sq (preScaled t)).rows.length :=
        (dedupStage_rows_sublist _).length_le
    _ = (preScaled t).rows.length := scaleTable_rows_length _ _
    _ ≤ (imputeStage (sparseStage t)).rows.length :=
        (trimStage_rows_sublist (imputeStage (sparseStage t))).length_le
    _ = (sparseStage t).rows.length := imputeStage_rows_length _
    _ ≤ t.rows.length := (sparseStage_rows_sublist t).length_le

/-- Witness for C6 on a concrete successful run. -/
theorem c6_output_row_count_le_w :
    clean (fun x => x) wtab = .ok wout ∧ wout.rows.length ≤ wtab.rows.length :=
  ⟨by rfl, (c6_output_row_count_le ℚ (fun x => x) wtab wout (by rfl)).1⟩

/-- C7: keep-first duplicate removal returns a sublist of its input
(later duplicates are dropped, order and first occurrences kept),
keeps at least one copy of every row, and leaves no two equal rows;
consequently the rows of a successful pipeline run are pairwise
distinct. -/
theorem c7_dedup_keep_first (β : Type) [DecidableEq β] (l : List β)
    (α : Type) [LinearOrderedField α] [DecidableEq α]
    (sq : α → α) (t u : Table α) (h : clean sq t = .ok u) :
    (dedupFirst l).Sublist l ∧ (dedupFirst l).Nodup ∧
    (∀ b, b ∈ dedupFirst l ↔ b ∈ l) ∧ u.rows.Nodup := by
  refine ⟨dedupFirst_sublist l, dedupFirst_nodup l, fun b => mem_dedupFirst l b, ?_⟩
  obtain ⟨rfl, -, -⟩ := clean_ok_elim sq t u h
  exact dedupFirst_nodup _

/-- Witness for C7 on a concrete list and a concrete run. -/
theorem c7_dedup_keep_first_w :
    (dedupFirst [0, 0, 1, 0]).Sublist [0, 0, 1, 0] ∧
    (dedupFirst [0, 0, 1, 0]).Nodup ∧
    (∀ b, b ∈ dedupFirst [0, 0, 1, 0] ↔ b ∈ [0, 0, 1, 0]) ∧
    wout.rows.Nodup :=
  c7_dedup_keep_first ℕ [0, 0, 1, 0] ℚ (fun x => x) wtab wout (by rfl)

/-- C10: the `Date` cells of the rows of a successful run form a
sublist of the `Date` column the typed table entered the pipeline
with: stages 5-7 rewrite only numeric cells and stages 4, 6, 8 only
drop whole rows, so no surviving row's date is ever rewritten. -/
theorem c10_dates_never_rewritten (α : Type) [LinearOrderedField α] [DecidableEq α]
    (sq : α → α) (t u : Table α) (h : clean sq t = .ok u) :
    (u.rows.map Row.date).Sublist (t.rows.map Row.date) := by
  obtain ⟨rfl, -, -⟩ := clean_ok_elim sq t u h
  have h1 : ((dedupStage (scaleTable sq (preScaled t))).rows.map Row.date).Sublist
      ((scaleTable sq (preScaled t)).rows.map Row.date) :=
    (dedupStage_rows_sublist _).map _
  rw [scaleTable_dates] at h1
  have h2 : ((preScaled t).rows.map Row.date).Sublist
      ((imputeStage (sparseStage t)).rows.map Row.date) :=
    (trimStage_rows_sublist (imputeStage (sparseStage t))).map _
  rw [imputeStage_dates] at h2
  have h3 : ((sparseStage t).rows.map Row.date).Sublist (t.rows.map Row.date) :=
    (sparseStage_rows_sublist t).map _
  exact h1.trans (h2.trans h3)

/-- Witness for C10 on a concrete successful run. -/
theorem c10_dates_never_rewritten_w :
    (wout.rows.map Row.date).Sublist (wtab.rows.map Row.date) :=
  c10_dates_never_rewritten ℚ (fun x => x) wtab wout (by rfl)

/-- C1 (amended): stages 1-3 absorb every cell-level parse failure as
a missing value and never raise (given a `Date` column, the typed
table always exists), but the pipeline is not total on all tables:
it completes exactly when there is at least one numeric column and at
least one row survives outlier trimming; otherwise the standardization
stage raises (`StandardScaler` rejects an empty selection). -/
theorem c1_parse_absorbed_scale_nontotal :
    (∀ rt : RawTable, "Date" ∈ rt.header → (parseTable rt).isSome) ∧
    (∀ (α : Type) [_i1 : LinearOrderedField α] [_i2 : DecidableEq α]
        (sq : α → α) (t : Table α),
      (∃ u, clean sq t = .ok u) ↔
        t.numNames ≠ [] ∧ (preScaled t).rows ≠ []) := by
  constructor
  · intro rt hmem
    unfold parseTable
    cases hf : rt.header.findIdx? (fun h => h = "Date") with
    | none =>
        rw [List.findIdx?_eq_none_iff] at hf
        have := hf _ hmem
        simp at this
    | some di => rfl
  · intro α _inst1 _inst2 sq t
    exact clean_ok_iff sq t

/-- Counterexample to C1 as stated: a decodable header-only blob whose
cleaning run raises.  Every row (there are none) is "dropped", and the
pipeline does not complete: the scaler errors instead of degrading
gracefully. -/
theorem c1_empty_table_raises :
    (decode c1csv).toOption.bind parseTable = some ⟨["X"], []⟩ ∧
    clean Real.sqrt (⟨["X"], []⟩ : Table ℝ) = .error .emptyScale :=
  ⟨by decide, rfl⟩

/-- Witness for C1 at a concrete raw table and a concrete run. -/
theorem c1_parse_absorbed_scale_nontotal_w :
    (parseTable ⟨["Date", "X"], [[some "1/1/2020", some "oops"]]⟩).isSome ∧
    (∃ u, clean (fun x => x) wtab = .ok u) :=
  ⟨c1_parse_absorbed_scale_nontotal.1 _ (by decide),
   (c1_parse_absorbed_scale_nontotal.2 ℚ (fun x => x) wtab).mpr (by decide)⟩

/-- C3 (amended): after median imputation every numeric column that
still had a present value holds no missing cell — each missing cell
now holds the column's median over the values present after stage 4,
every present cell is unchanged, and no `Date` cell is touched.  (A
numeric column whose cells are all missing is left entirely missing:
its median is itself missing, and `fillna(NaN)` is a no-op, which is
what the counterexample exhibits.) -/
theorem c3_impute_fills_columns_with_values (α : Type) [LinearOrderedField α]
    (t : Table α) (j : ℕ)
    (hrect : ∀ r ∈ t.rows, r.nums.length = t.numNames.length)
    (hj : j < t.numNames.length)
    (hp : presentVals t j ≠ []) :
    ∃ m, colMedian t j = some m ∧
      getCol (imputeStage t) j = (getCol t j).map (fun c => some (c.getD m)) ∧
      (∀ c ∈ getCol (imputeStage t) j, c.isSome) ∧
      (imputeStage t).rows.map Row.date = t.rows.map Row.date := by
  obtain ⟨m, hm⟩ := medianQ_isSome (presentVals t j) hp
  have hcol : getCol (imputeStage t) j =
      (getCol t j).map (fun c => some (c.getD m)) := by
    rw [getCol_imputeStage t j hrect hj]
    refine List.map_congr_left fun c _ => ?_
    rcases c with - | v
    · exact hm
    · rfl
  refine ⟨m, hm, hcol, ?_, imputeStage_dates t⟩
  rw [hcol]
  intro c hc
  obtain ⟨c0, -, rfl⟩ := List.mem_map.mp hc
  rfl

/-- Counterexample to C3 as stated: the blob `c3csv` decodes and
parses to a two-row table whose column `Y` survives sparse-row removal
entirely missing, and after stage 5 the column still consists of
missing values. -/
theorem c3_all_missing_column_stays_missing :
    (decode c3csv).toOption.bind parseTable = some c3typed ∧
    getCol (imputeStage (sparseStage c3typed)) 1 = [none, none] :=
  ⟨by decide, by decide⟩

/-- Witness for C3 on the concrete column `X` of the same table. -/
theorem c3_impute_fills_columns_with_values_w :
    presentVals c3typed 0 ≠ [] ∧
    (∃ m, colMedian c3typed 0 = some m ∧
      getCol (imputeStage c3typed) 0 =
        (getCol c3typed 0).map (fun c => some (c.getD m)) ∧
      (∀ c ∈ getCol (imputeStage c3typed) 0, c.isSome) ∧
      (imputeStage c3typed).rows.map Row.date = c3typed.rows.map Row.date) :=
  ⟨by decide,
   c3_impute_fills_columns_with_values ℚ c3typed 0 (by decide) (by decide) (by decide)⟩

/-- C4: after standardization, every numeric column whose present
values had nonzero population variance (ddof = 0, `sklearn`'s choice)
before scaling has mean 0 and population standard deviation 1 —
exactly, in the real-number model of the float computation. -/
theorem c4_standardized_mean_zero_sd_one (t : Table ℝ) (j : ℕ)
    (hv : popVar (presentVals t j) ≠ 0) :
    meanL (presentVals (scaleTable Real.sqrt t) j) = 0 ∧
    popVar (presentVals (scaleTable Real.sqrt t) j) = 1 ∧
    Real.sqrt (popVar (presentVals (scaleTable Real.sqrt t) j)) = 1 := by
  have hl : presentVals t j ≠ [] := by
    intro he
    apply hv
    rw [he]
    simp [popVar]
  have hcs : colScale Real.sqrt t j = Real.sqrt (popVar (presentVals t j)) := by
    unfold colScale scaleOf
    rw [if_neg hv]
  have hmean : meanL (presentVals (scaleTable Real.sqrt t) j) = 0 := by
    rw [presentVals_scaleTable]
    unfold colMean
    exact meanL_center_div _ _ hl
  have hvar : popVar (presentVals (scaleTable Real.sqrt t) j) = 1 := by
    rw [presentVals_scaleTable]
    unfold colMean
    rw [popVar_center_div _ _ hl, hcs, Real.sq_sqrt (popVar_nonneg _)]
    exact div_self hv
  exact ⟨hmean, hvar, by rw [hvar]; exact Real.sqrt_one⟩

/-- Witness for C4 on the column `[0, 2]`, of variance 1. -/
theorem c4_standardized_mean_zero_sd_one_w :
    popVar (presentVals c4tab 0) ≠ 0 ∧
    meanL (presentVals (scaleTable Real.sqrt c4tab) 0) = 0 ∧
    popVar (presentVals (scaleTable Real.sqrt c4tab) 0) = 1 := by
  have hv : popVar (presentVals c4tab 0) ≠ 0 := by
    have h1 : presentVals c4tab 0 = [0, 2] := rfl
    rw [h1]
    norm_num [popVar, meanL]
  obtain ⟨h1, h2, -⟩ := c4_standardized_mean_zero_sd_one c4tab 0 hv
  exact ⟨hv, h1, h2⟩

/-- C8: on an already-cleaned table — nonempty, with at least one
numeric column, rectangular, with every numeric cell present (the
state every successful run ends in), with no cell outside its
column's IQR bounds and with no duplicate rows — cleaning again
succeeds and returns exactly as many rows as it was given. -/
theorem c8_reclean_preserves_row_count (t : Table ℝ)
    (hn : t.numNames ≠ []) (hr : t.rows ≠ [])
    (hrect : ∀ r ∈ t.rows, r.nums.length = t.numNames.length)
    (hpres : ∀ r ∈ t.rows, ∀ c ∈ r.nums, c.isSome)
    (hbounds : ∀ j < t.numNames.length, ∀ r ∈ t.rows,
      keepCell (quantileQ 1 4 (presentVals t j)) (quantileQ 3 4 (presentVals t j))
        (cellAt r j) = true)
    (hnodup : t.rows.Nodup) :
    ∃ u, clean Real.sqrt t = .ok u ∧ u.rows.length = t.rows.length := by
  have h4 : sparseStage t = t := sparseStage_eq_self t hn hrect hpres
  have h5 : imputeStage t = t := imputeStage_eq_self t hpres
  have h6 : trimStage t = t := trimStage_eq_self t hbounds
  have hpre : preScaled t = t := by
    unfold preScaled
    rw [h4, h5, h6]
  refine ⟨dedupStage (scaleTable Real.sqrt t), ?_, ?_⟩
  · show (scaleStage Real.sqrt (preScaled t)).map dedupStage = _
    rw [hpre]
    unfold scaleStage
    rw [if_neg, Except.map]
    push_neg
    exact ⟨fun he => hr (List.length_eq_zero.mp he),
      fun he => hn (List.length_eq_zero.mp he)⟩
  · show (dedupFirst (scaleTable Real.sqrt t).rows).length = _
    rw [dedupFirst_eq_self _ (scaleTable_rows_nodup t hnodup),
      scaleTable_rows_length]

/-- Witness for C8 on a concrete one-row cleaned table. -/
theorem c8_reclean_preserves_row_count_w :
    ∃ u, clean Real.sqrt c8tab = .ok u ∧ u.rows.length = c8tab.rows.length := by
  refine c8_reclean_preserves_row_count c8tab (by decide) ?_ ?_ ?_ ?_ ?_
  · exact List.cons_ne_nil _ _
  · intro r hrr
    rw [List.mem_singleton.mp hrr]
    rfl
  · intro r hrr c hc
    rw [List.mem_singleton.mp hrr] at hc
    rw [List.mem_singleton.mp hc]
    rfl
  · intro j hj r hrr
    have hlen : c8tab.numNames.length = 1 := rfl
    have hj0 : j = 0 := by omega
    subst hj0
    rw [List.mem_singleton.mp hrr]
    have hq1 : quantileQ 1 4 (presentVals c8tab 0) = some 0 := rfl
    have hq3 : quantileQ 3 4 (presentVals c8tab 0) = some 0 := rfl
    rw [hq1, hq3]
    show keepCell (some 0) (some 0) (some 0) = true
    rw [show keepCell (some (0 : ℝ)) (some 0) (some 0) =
      decide ((0 : ℝ) - 3 / 2 * (0 - 0) ≤ 0 ∧ (0 : ℝ) ≤ 0 + 3 / 2 * (0 - 0)) from rfl,
      decide_eq_true_eq]
    norm_num
  · exact List.nodup_singleton _

/-- Decoding the data rows errors exactly when some row has more
fields than the established row width `w`. -/
theorem mapM_decodeRow_err (k w : ℕ) (ds : List (List Char)) :
    (∃ e, ds.mapM (decodeRow k w) = .error e) ↔
      ∃ d ∈ ds, w < (fieldsOf d).length := by
  induction ds with
  | nil =>
      constructor
      · rintro ⟨e, he⟩
        exact absurd he (by intro hh; cases hh)
      · rintro ⟨d, hdm, -⟩
        exact absurd hdm (List.not_mem_nil d)
  | cons d ds ih =>
      rw [List.mapM_cons]
      by_cases hd : w < (fieldsOf d).length
      · have herr : decodeRow k w d = .error .rowTooLong := by
          unfold decodeRow
          rw [if_pos hd]
        rw [herr]
        constructor
        · intro _
          exact ⟨d, List.mem_cons_self _ _, hd⟩
        · intro _
          exact ⟨.rowTooLong, rfl⟩
      · have hok : decodeRow k w d =
            .ok (((fieldsOf d).map tokenCell ++
              List.replicate (w - (fieldsOf d).length) none).drop k) := by
          unfold decodeRow
          rw [if_neg hd]
        rw [hok]
        show (∃ e, Except.bind (ds.mapM (decodeRow k w)) _ = .error e) ↔ _
        constructor
        · rintro ⟨e, he⟩
          cases hds : ds.mapM (decodeRow k w) with
          | error e2 =>
              obtain ⟨d2, hd2, hlen⟩ := ih.mp ⟨e2, hds⟩
              exact ⟨d2, List.mem_cons_of_mem _ hd2, hlen⟩
          | ok rest =>
              rw [hds] at he
              exact absurd he (by simp [Except.bind, pure, Except.pure])
        · rintro ⟨d2, hd2, hlen⟩
          rcases List.mem_cons.mp hd2 with rfl | hd2
          · exact absurd hlen hd
          · obtain ⟨e, he⟩ := ih.mpr ⟨d2, hd2, hlen⟩
            exact ⟨e, by rw [he]; rfl⟩

/-- Every row a successful row-decode returns has exactly the
established width minus the index-field count: short rows were padded
with missing cells and the index fields dropped. -/
theorem mapM_decodeRow_ok (k w : ℕ) (ds : List (List Char))
    (rows : List (List (Option String)))
    (h : ds.mapM (decodeRow k w) = .ok rows) :
    ∀ row ∈ rows, row.length = w - k := by
  induction ds generalizing rows with
  | nil =>
      simp only [List.mapM_nil, pure, Except.pure, Except.ok.injEq] at h
      subst h
      intro row hrow
      exact absurd hrow (List.not_mem_nil row)
  | cons d ds ih =>
      rw [List.mapM_cons] at h
      cases hd : decodeRow k w d with
      | error e =>
          rw [hd] at h
          exact absurd h (by simp [Bind.bind, Except.bind])
      | ok row0 =>
          rw [hd] at h
          cases hds : ds.mapM (decodeRow k w) with
          | error e =>
              rw [hds] at h
              exact absurd h (by simp [Bind.bind, Except.bind])
          | ok rest =>
              rw [hds] at h
              simp only [Bind.bind, Except.bind, pure, Except.pure,
                Except.ok.injEq] at h
              subst h
              intro row hrow
              rcases List.mem_cons.mp hrow with rfl | hrow
              · simp only [decodeRow] at hd
                split at hd
                · exact absurd hd (by simp)
                · rename_i hlen
                  have := (Except.ok.injEq _ _).mp hd
                  rw [← this, List.length_drop, List.length_append,
                    List.length_map, List.length_replicate]
                  omega
              · exact ih rest hds row hrow

/-- C9 (amended): decoding fails exactly when some data row supplies
more values than the row width established at the start of parsing —
the header width, or the first data row's width when that row is
wider, in which case its extra leading fields become the row index
rather than an error (so the first data row itself can never fail);
a data row with fewer values does not raise — it is silently padded
with missing values, so every decoded row carries exactly one value
per header column.  The last conjunct shows index-column inference on
a concrete blob: a three-field first data row under a two-name header
succeeds, the leading field going to the index. -/
theorem c9_decode_errors_only_on_long_rows (s : String) (hline : List Char)
    (ds : List (List Char)) (hl : decodeLines s = hline :: ds) :
    ((∃ e, decode s = .error e) ↔
      ∃ d ∈ ds, expectedWidth (fieldsOf hline).length ds < (fieldsOf d).length) ∧
    (∀ rt, decode s = .ok rt →
      ∀ row ∈ rt.rows, row.length = rt.header.length) ∧
    decode idxcsv = .ok ⟨["A", "B"], [[some "2", some "3"]]⟩ := by
  have hn : ((fieldsOf hline).map String.mk).length = (fieldsOf hline).length :=
    List.length_map _ _
  have hd : decode s =
      Except.bind (ds.mapM (decodeRow
          (expectedWidth ((fieldsOf hline).map String.mk).length ds -
            ((fieldsOf hline).map String.mk).length)
          (expectedWidth ((fieldsOf hline).map String.mk).length ds)))
        (fun rows => .ok ⟨(fieldsOf hline).map String.mk, rows⟩) := by
    unfold decode
    rw [hl]
    rfl
  rw [hn] at hd
  have hw : (fieldsOf hline).length ≤ expectedWidth (fieldsOf hline).length ds := by
    cases ds with
    | nil => exact Nat.le_refl _
    | cons d0 ds2 => exact Nat.le_max_left _ _
  refine ⟨?_, ?_, rfl⟩
  · constructor
    · rintro ⟨e, he⟩
      rw [hd] at he
      cases hm : ds.mapM (decodeRow
          (expectedWidth (fieldsOf hline).length ds - (fieldsOf hline).length)
          (expectedWidth (fieldsOf hline).length ds)) with
      | error e2 => exact (mapM_decodeRow_err _ _ ds).mp ⟨e2, hm⟩
      | ok rest =>
          rw [hm] at he
          exact absurd he (by simp [Except.bind])
    · intro hex
      obtain ⟨e, he⟩ := (mapM_decodeRow_err
        (expectedWidth (fieldsOf hline).length ds - (fieldsOf hline).length)
        (expectedWidth (fieldsOf hline).length ds) ds).mpr hex
      exact ⟨e, by rw [hd, he]; rfl⟩
  · intro rt hrt
    rw [hd] at hrt
    cases hm : ds.mapM (decodeRow
        (expectedWidth (fieldsOf hline).length ds - (fieldsOf hline).length)
        (expectedWidth (fieldsOf hline).length ds)) with
    | error e2 =>
        rw [hm] at hrt
        exact absurd hrt (by simp [Except.bind])
    | ok rest =>
        rw [hm] at hrt
        simp only [Except.bind, Except.ok.injEq] at hrt
        subst hrt
        intro row hrow
        have hlen := mapM_decodeRow_ok _ _ ds rest hm row hrow
        show row.length = ((fieldsOf hline).map String.mk).length
        rw [hn]
        omega

/-- Counterexample to C9 as stated: a blob whose single data row has
two values under a three-name header decodes successfully, the row
padded with a missing cell — no `FormatError` is raised. -/
theorem c9_short_row_padded_not_error :
    decode c9csv = .ok ⟨["A", "B", "C"], [[some "1", some "2", none]]⟩ := rfl

/-- Witness for C9 on the same concrete blob. -/
theorem c9_decode_errors_only_on_long_rows_w :
    ((∃ e, decode c9csv = .error e) ↔
      ∃ d ∈ [String.toList "1,2"],
        expectedWidth (fieldsOf (String.toList "A,B,C")).length
          [String.toList "1,2"] < (fieldsOf d).length) ∧
    (∀ rt, decode c9csv = .ok rt →
      ∀ row ∈ rt.rows, row.length = rt.header.length) ∧
    decode idxcsv = .ok ⟨["A", "B"], [[some "2", some "3"]]⟩ :=
  c9_decode_errors_only_on_long_rows c9csv (String.toList "A,B,C")
    [String.toList "1,2"] (by decide)

end Ozone
